import Mathlib

/-!
Verification of the `dft` crate (radix-2 Cooley–Tukey DFT) against its
natural-language specification.

The file shallowly embeds `src/lib.rs` into Lean:

* `Operation`, `Plan` and `Plan.new` are translated directly from the Rust
  source.  Rust's `f64` arithmetic is modelled by exact real arithmetic `ℝ`
  (complex values by `ℂ`), so "within floating-point tolerance" claims are
  settled as exact equalities of the corresponding real-number computation.
* Rust's `assert!(n.is_power_of_two())` (a panic) is modelled by returning
  `Option`: `Plan.new` yields `none` exactly when the assertion would fail.
* The modules `complex.rs` and `real.rs` (the butterfly engine and the real
  pack/unpack adaptation) are not part of the given sources; the definitions
  for them below are modelled from the specification's contracts and are
  marked `Modelled from the spec:` in their doc comments.
-/

/-- The three transform operations of the crate (`Operation` in `lib.rs`). -/
inductive Operation
  /-- The forward transform. -/
  | Forward
  /-- The backward transform. -/
  | Backward
  /-- The inverse transform. -/
  | Inverse
deriving DecidableEq, Repr

/-- Rust's `usize::is_power_of_two` (`count_ones() == 1`), modelled by the
equivalent decidable property "`n = 2 ^ k` for some `k`"; the exponent can be
bounded by `n` itself, which makes the test computable. -/
def isPowerOfTwo (n : ℕ) : Bool :=
  decide (∃ k, k ≤ n ∧ n = 2 ^ k)

/-- The per-stage factor loop of `Plan::new`
(`for _ in 0..step { factors.push(factor); factor = multiplier * factor + factor; }`):
starting from `factor`, push `count` factors, each next one being
`multiplier * factor + factor`. -/
def stageFactors (multiplier : ℂ) : ℕ → ℂ → List ℂ
  | 0, _ => []
  | count + 1, factor => factor :: stageFactors multiplier count (multiplier * factor + factor)

/-- The per-stage multiplier of `Plan::new`: with `theta = π / step` and
`sine = sin (theta / 2)`, the complex number `(-2 * sine * sine, sign * sin theta)`. -/
noncomputable def stageMultiplier (sign : ℝ) (step : ℕ) : ℂ :=
  let theta := Real.pi / (step : ℝ)
  let sine := Real.sin (theta / 2)
  ⟨-2 * sine * sine, sign * Real.sin theta⟩

/-- The `while step < n` loop of `Plan::new`: starting from sub-block size
`step` (a positive number; the source starts it at `1`), append the factors of
each stage, doubling `step`, until `step < n` fails. -/
noncomputable def factorsFrom (sign : ℝ) (n : ℕ) (step : ℕ) : List ℂ :=
  if _h : 0 < step ∧ step < n then
    stageFactors (stageMultiplier sign step) step 1 ++ factorsFrom sign n (2 * step)
  else []
termination_by n - step
decreasing_by omega

/-- The sign chosen by `Plan::new`:
`if let Operation::Forward = operation { -one } else { one }`. -/
noncomputable def Operation.sign : Operation → ℝ
  | .Forward => -1
  | _ => 1

/-- The `Plan` struct of `lib.rs` (over `T = f64`, modelled by `ℝ`). -/
structure Plan where
  n : ℕ
  factors : List ℂ
  operation : Operation

/-- `Plan::new(operation, n)` from `lib.rs`.  The `assert!(n.is_power_of_two())`
panic is modelled by `none`; otherwise the factor vector is built stage by
stage starting at `step = 1`. -/
noncomputable def Plan.new (operation : Operation) (n : ℕ) : Option Plan :=
  if isPowerOfTwo n then
    some { n := n, factors := factorsFrom operation.sign n 1, operation := operation }
  else
    none

/-! ### Basic facts about `isPowerOfTwo` -/

theorem isPowerOfTwo_iff (n : ℕ) : isPowerOfTwo n = true ↔ ∃ k, n = 2 ^ k := by
  unfold isPowerOfTwo
  rw [decide_eq_true_iff]
  constructor
  · rintro ⟨k, -, hk⟩; exact ⟨k, hk⟩
  · rintro ⟨k, hk⟩
    exact ⟨k, by rw [hk]; exact le_of_lt (Nat.lt_two_pow k), hk⟩

theorem isPowerOfTwo_two_pow (k : ℕ) : isPowerOfTwo (2 ^ k) = true :=
  (isPowerOfTwo_iff _).mpr ⟨k, rfl⟩

/-! ### Structure of the factor list -/

theorem stageFactors_length (m : ℂ) : ∀ (count : ℕ) (f : ℂ),
    (stageFactors m count f).length = count := by
  intro count
  induction count with
  | zero => intro f; rfl
  | succ c ih => intro f; simp [stageFactors, ih]

theorem factorsFrom_of_lt {sign : ℝ} {n step : ℕ} (h0 : 0 < step) (h : step < n) :
    factorsFrom sign n step
      = stageFactors (stageMultiplier sign step) step 1 ++ factorsFrom sign n (2 * step) := by
  rw [factorsFrom]
  simp [h0, h]

theorem factorsFrom_of_not_lt {sign : ℝ} {n step : ℕ} (h : ¬ step < n) :
    factorsFrom sign n step = [] := by
  rw [factorsFrom]
  simp [h]

theorem factorsFrom_length (sign : ℝ) (K : ℕ) :
    ∀ (j i : ℕ), i + j = K → (factorsFrom sign (2 ^ K) (2 ^ i)).length = 2 ^ K - 2 ^ i := by
  intro j
  induction j with
  | zero =>
    intro i hi
    have hik : i = K := by omega
    subst hik
    rw [factorsFrom_of_not_lt (lt_irrefl _)]
    simp
  | succ j ih =>
    intro i hi
    have hik : i < K := by omega
    have hlt : (2 : ℕ) ^ i < 2 ^ K := Nat.pow_lt_pow_right (by norm_num) hik
    rw [factorsFrom_of_lt (Nat.pos_pow_of_pos i (by norm_num)) hlt]
    have h2 : (2 : ℕ) * 2 ^ i = 2 ^ (i + 1) := by rw [pow_succ]; ring
    rw [List.length_append, stageFactors_length, h2, ih (i + 1) (by omega)]
    have hle : (2 : ℕ) ^ (i + 1) ≤ 2 ^ K := Nat.pow_le_pow_right (by norm_num) (by omega)
    have : (2 : ℕ) ^ (i + 1) = 2 * 2 ^ i := by rw [pow_succ]; ring
    omega

theorem factorsFrom_getElem_stage_head (sign : ℝ) (K : ℕ) :
    ∀ (j d i : ℕ), d + j = K → d ≤ i → 2 ^ i < 2 ^ K →
      (factorsFrom sign (2 ^ K) (2 ^ d))[2 ^ i - 2 ^ d]? = some 1 := by
  intro j
  induction j with
  | zero =>
    intro d i hd hdi hi
    exfalso
    have h1 : (2 : ℕ) ^ d ≤ 2 ^ i := Nat.pow_le_pow_right (by norm_num) hdi
    have h2 : d = K := by omega
    subst h2
    omega
  | succ j ih =>
    intro d i hd hdi hi
    have hdK : d < K := by
      rcases Nat.lt_or_ge d K with h | h
      · exact h
      · exfalso
        have h1 : (2 : ℕ) ^ d ≤ 2 ^ i := Nat.pow_le_pow_right (by norm_num) hdi
        have h2 : (2 : ℕ) ^ K ≤ 2 ^ d := Nat.pow_le_pow_right (by norm_num) h
        omega
    have hdlt : (2 : ℕ) ^ d < 2 ^ K := Nat.pow_lt_pow_right (by norm_num) hdK
    rw [factorsFrom_of_lt (Nat.pos_pow_of_pos d (by norm_num)) hdlt]
    rcases Nat.eq_or_lt_of_le hdi with h | h
    · subst h
      obtain ⟨c, hc⟩ : ∃ c, 2 ^ d = c + 1 := ⟨2 ^ d - 1, by have := Nat.pos_pow_of_pos d (by norm_num : 0 < 2); omega⟩
      rw [Nat.sub_self, hc]
      simp [stageFactors]
    · have hlen : (stageFactors (stageMultiplier sign (2 ^ d)) (2 ^ d) 1).length ≤ 2 ^ i - 2 ^ d := by
        rw [stageFactors_length]
        have : (2 : ℕ) ^ (d + 1) ≤ 2 ^ i := Nat.pow_le_pow_right (by norm_num) h
        have : (2 : ℕ) ^ (d + 1) = 2 * 2 ^ d := by rw [pow_succ]; ring
        omega
      rw [List.getElem?_append_right hlen, stageFactors_length]
      have h2 : (2 : ℕ) * 2 ^ d = 2 ^ (d + 1) := by rw [pow_succ]; ring
      have h3 : (2 : ℕ) ^ i - 2 ^ d - 2 ^ d = 2 ^ i - 2 ^ (d + 1) := by
        have : (2 : ℕ) ^ (d + 1) = 2 * 2 ^ d := by rw [pow_succ]; ring
        omega
      rw [h2, h3]
      exact ih (d + 1) i (by omega) h hi

/-- Inverting a successful `Plan.new`: the length was a power of two and the
fields are the ones the constructor stores. -/
theorem plan_new_eq_some {op : Operation} {n : ℕ} {p : Plan}
    (h : Plan.new op n = some p) :
    (∃ K, n = 2 ^ K) ∧ p.n = n ∧ p.factors = factorsFrom op.sign n 1 ∧ p.operation = op := by
  unfold Plan.new at h
  by_cases hpt : isPowerOfTwo n = true
  · rw [if_pos hpt] at h
    have hp := Option.some.inj h
    refine ⟨(isPowerOfTwo_iff n).mp hpt, ?_, ?_, ?_⟩ <;> rw [← hp]
  · rw [if_neg hpt] at h
    exact absurd h (by simp)

/-- Straightforward evaluation of `Plan.new` at a power of two. -/
theorem plan_new_two_pow (op : Operation) (k : ℕ) :
    Plan.new op (2 ^ k) = some ⟨2 ^ k, factorsFrom op.sign (2 ^ k) 1, op⟩ := by
  unfold Plan.new
  rw [if_pos (isPowerOfTwo_two_pow k)]

/-- C2: for every operation and every power-of-two `n`, `Plan::new` produces
exactly `n − 1` factors, and the factor at index `step − 1` (the first factor
of the stage with sub-block size `step = 2^i`, for every stage `2^i < n`)
equals `1 + 0i`. -/
theorem plan_new_factors_length_and_stage_heads (op : Operation) (n : ℕ) (p : Plan)
    (h : Plan.new op n = some p) :
    p.factors.length = n - 1 ∧ ∀ i : ℕ, 2 ^ i < n → p.factors[2 ^ i - 1]? = some 1 := by
  obtain ⟨⟨K, rfl⟩, -, hf, -⟩ := plan_new_eq_some h
  constructor
  · rw [hf]
    have h1 : (1 : ℕ) = 2 ^ 0 := rfl
    rw [h1, factorsFrom_length op.sign K K 0 (by omega)]
  · intro i hi
    rw [hf]
    have h1 : (1 : ℕ) = 2 ^ 0 := rfl
    rw [h1]
    exact factorsFrom_getElem_stage_head op.sign K K 0 i (by omega) (by omega) hi

theorem plan_new_factors_length_and_stage_heads_witness :
    Plan.new Operation.Forward 4
        = some ⟨4, factorsFrom Operation.Forward.sign 4 1, Operation.Forward⟩
      ∧ (Plan.mk 4 (factorsFrom Operation.Forward.sign 4 1) Operation.Forward).factors.length = 4 - 1
      ∧ ∀ i : ℕ, 2 ^ i < 4 →
          (Plan.mk 4 (factorsFrom Operation.Forward.sign 4 1) Operation.Forward).factors[2 ^ i - 1]?
            = some 1 := by
  have h : Plan.new Operation.Forward 4
      = some ⟨4, factorsFrom Operation.Forward.sign 4 1, Operation.Forward⟩ := by
    have h4 := plan_new_two_pow Operation.Forward 2
    norm_num at h4 ⊢
    exact h4
  have := plan_new_factors_length_and_stage_heads Operation.Forward 4
    (Plan.mk 4 (factorsFrom Operation.Forward.sign 4 1) Operation.Forward) h
  exact ⟨h, this.1, this.2⟩

/-- C3: `Plan.new` yields the assertion-failure outcome (modelled as `none`)
for `n = 3`, for `n = 0`, and in general whenever `n` is not a power of two;
at every power of two it returns an actual `Plan`. -/
theorem plan_new_power_of_two_contract (op : Operation) :
    Plan.new op 3 = none ∧ Plan.new op 0 = none ∧
      (∀ n : ℕ, (¬ ∃ k, n = 2 ^ k) → Plan.new op n = none) ∧
      (∀ k : ℕ, (Plan.new op (2 ^ k)).isSome = true) := by
  have hnone : ∀ n : ℕ, (¬ ∃ k, n = 2 ^ k) → Plan.new op n = none := by
    intro n hn
    have hpt : isPowerOfTwo n = false := by
      rw [Bool.eq_false_iff]
      intro h
      exact hn ((isPowerOfTwo_iff n).mp h)
    unfold Plan.new
    rw [hpt]
    rfl
  refine ⟨?_, ?_, hnone, ?_⟩
  · refine hnone 3 ?_
    rintro ⟨k, hk⟩
    rcases k with _ | _ | k
    · simp at hk
    · simp at hk
    · have h1 : (1 : ℕ) ≤ 2 ^ k := Nat.one_le_two_pow
      rw [pow_succ, pow_succ] at hk
      omega
  · refine hnone 0 ?_
    rintro ⟨k, hk⟩
    have h1 : (1 : ℕ) ≤ 2 ^ k := Nat.one_le_two_pow
    omega
  · intro k
    rw [plan_new_two_pow]
    rfl

theorem plan_new_power_of_two_contract_witness :
    Plan.new Operation.Forward 3 = none ∧ Plan.new Operation.Forward 5 = none
      ∧ (Plan.new Operation.Forward (2 ^ 2)).isSome = true := by
  have h5 : ¬ ∃ k, (5 : ℕ) = 2 ^ k := by
    rintro ⟨k, hk⟩
    rcases k with _ | _ | k
    · simp at hk
    · simp at hk
    · have h1 : (1 : ℕ) ≤ 2 ^ k := Nat.one_le_two_pow
      rw [pow_succ, pow_succ] at hk
      omega
  exact ⟨(plan_new_power_of_two_contract Operation.Forward).1,
    (plan_new_power_of_two_contract Operation.Forward).2.2.1 5 h5,
    (plan_new_power_of_two_contract Operation.Forward).2.2.2 2⟩

/-- C10: `Plan.new` builds element-wise identical factor sequences (and the
same stored length) for `Backward` and `Inverse`; the resulting plans differ
only in the stored operation. -/
theorem plan_new_backward_inverse_same_factors (n : ℕ) :
    (Plan.new Operation.Backward n).map (fun p => (p.n, p.factors))
        = (Plan.new Operation.Inverse n).map (fun p => (p.n, p.factors))
      ∧ (Plan.new Operation.Backward n).map Plan.operation
          = (Plan.new Operation.Backward n).map (fun _ => Operation.Backward)
      ∧ (Plan.new Operation.Inverse n).map Plan.operation
          = (Plan.new Operation.Inverse n).map (fun _ => Operation.Inverse) := by
  unfold Plan.new
  by_cases hpt : isPowerOfTwo n = true
  · simp only [hpt, if_true]
    refine ⟨?_, rfl, rfl⟩
    have hsign : Operation.Backward.sign = Operation.Inverse.sign := rfl
    rw [hsign]
    rfl
  · simp [if_neg hpt]

/-! ### C4: the factor recurrence as the specification words it -/

/-- The claim's per-stage recurrence multiplier for base angle `θ = π / step`:
the complex number `(−2·sin²(θ/2), sign·sin θ)`. -/
noncomputable def specMultiplier (sign : ℝ) (step : ℕ) : ℂ :=
  ⟨-2 * Real.sin (Real.pi / (step : ℝ) / 2) ^ 2, sign * Real.sin (Real.pi / (step : ℝ))⟩

/-- The claim's sign convention: `−1` for `Forward`, `+1` for `Backward` and
for `Inverse`. -/
noncomputable def specSign : Operation → ℝ
  | .Forward => -1
  | .Backward => 1
  | .Inverse => 1

/-- The claim's stage generation: starting from `1 + 0i`, repeatedly apply
`factor ← multiplier·factor + factor`, keeping `step` factors in generation
order. -/
noncomputable def specStage (op : Operation) (step : ℕ) : List ℂ :=
  stageFactors (specMultiplier (specSign op) step) step 1

theorem stageMultiplier_eq_spec (sign : ℝ) (step : ℕ) :
    stageMultiplier sign step = specMultiplier sign step := by
  unfold stageMultiplier specMultiplier
  apply Complex.ext
  · show -2 * Real.sin (Real.pi / (step : ℝ) / 2) * Real.sin (Real.pi / (step : ℝ) / 2) = _
    ring
  · rfl

theorem sign_eq_specSign (op : Operation) : op.sign = specSign op := by
  cases op <;> rfl

theorem factorsFrom_closed_form (sign : ℝ) (K : ℕ) :
    ∀ (j d : ℕ), d + j = K →
      factorsFrom sign (2 ^ K) (2 ^ d)
        = ((List.range j).map
            (fun t => stageFactors (stageMultiplier sign (2 ^ (d + t))) (2 ^ (d + t)) 1)).flatten := by
  intro j
  induction j with
  | zero =>
    intro d hd
    have hdK : d = K := by omega
    subst hdK
    rw [factorsFrom_of_not_lt (lt_irrefl _)]
    simp
  | succ j ih =>
    intro d hd
    have hdlt : (2 : ℕ) ^ d < 2 ^ K := Nat.pow_lt_pow_right (by norm_num) (by omega)
    rw [factorsFrom_of_lt (Nat.pos_pow_of_pos d (by norm_num)) hdlt]
    have h2 : (2 : ℕ) * 2 ^ d = 2 ^ (d + 1) := by rw [pow_succ]; ring
    rw [h2, ih (d + 1) (by omega), List.range_succ_eq_map]
    simp only [List.map_cons, List.flatten_cons, List.map_map]
    congr 1
    congr 1
    apply List.map_congr_left
    intro t _
    show stageFactors (stageMultiplier sign (2 ^ (d + 1 + t))) (2 ^ (d + 1 + t)) 1
      = stageFactors (stageMultiplier sign (2 ^ (d + (t + 1)))) (2 ^ (d + (t + 1))) 1
    rw [show d + 1 + t = d + (t + 1) by omega]

theorem specStage_length (op : Operation) (step : ℕ) : (specStage op step).length = step := by
  unfold specStage
  exact stageFactors_length _ step 1

theorem specStage_head (op : Operation) (step : ℕ) (h : 0 < step) :
    (specStage op step).head? = some 1 := by
  obtain ⟨c, hc⟩ : ∃ c, step = c + 1 := ⟨step - 1, by omega⟩
  subst hc
  simp [specStage, stageFactors]

/-- C4: a successful `Plan.new op n` (with `n = 2^K`) produces exactly the
stage-by-stage recurrence the specification describes: the concatenation, over
the stages `step = 2^0, 2^1, …, 2^(K−1)` in order, of the `step` factors
generated from `1 + 0i` by `factor ← multiplier·factor + factor`, where the
multiplier is `(−2·sin²(θ/2), sign·sin θ)` with `θ = π/step` and the sign is
`−1` for `Forward` and `+1` otherwise. -/
theorem plan_new_factors_stage_recurrence (op : Operation) (K : ℕ) (p : Plan)
    (h : Plan.new op (2 ^ K) = some p) :
    p.factors = ((List.range K).map (fun i => specStage op (2 ^ i))).flatten
      ∧ ∀ i : ℕ, (specStage op (2 ^ i)).length = 2 ^ i
          ∧ (specStage op (2 ^ i)).head? = some 1 := by
  refine ⟨?_, fun i => ⟨specStage_length op (2 ^ i),
    specStage_head op (2 ^ i) (Nat.pos_pow_of_pos i (by norm_num))⟩⟩
  obtain ⟨-, -, hf, -⟩ := plan_new_eq_some h
  rw [hf]
  have h1 : (1 : ℕ) = 2 ^ 0 := rfl
  rw [h1, factorsFrom_closed_form op.sign K K 0 (by omega)]
  congr 1
  apply List.map_congr_left
  intro t _
  show stageFactors (stageMultiplier op.sign (2 ^ (0 + t))) (2 ^ (0 + t)) 1 = specStage op (2 ^ t)
  rw [show 0 + t = t by omega, stageMultiplier_eq_spec, sign_eq_specSign]
  rfl

theorem plan_new_factors_stage_recurrence_witness :
    Plan.new Operation.Forward 2
        = some ⟨2, factorsFrom Operation.Forward.sign 2 1, Operation.Forward⟩
      ∧ (Plan.mk 2 (factorsFrom Operation.Forward.sign 2 1) Operation.Forward).factors
          = ((List.range 1).map (fun i => specStage Operation.Forward (2 ^ i))).flatten
      ∧ (specStage Operation.Forward (2 ^ 0)).length = 2 ^ 0
      ∧ (specStage Operation.Forward (2 ^ 0)).head? = some 1 := by
  have h : Plan.new Operation.Forward 2
      = some ⟨2, factorsFrom Operation.Forward.sign 2 1, Operation.Forward⟩ := by
    have h2 := plan_new_two_pow Operation.Forward 1
    norm_num at h2 ⊢
    exact h2
  have h2pow : (2 : ℕ) = 2 ^ 1 := by norm_num
  have := plan_new_factors_stage_recurrence Operation.Forward 1
    (Plan.mk 2 (factorsFrom Operation.Forward.sign 2 1) Operation.Forward) (by rw [← h2pow]; exact h)
  exact ⟨h, this.1, (this.2 0).1, (this.2 0).2⟩

/-! ### C8: unit modulus of all stored factors (exact arithmetic) -/

theorem abs_stageMultiplier_add_one (sign : ℝ) (hs : sign = 1 ∨ sign = -1) (step : ℕ) :
    Complex.abs (stageMultiplier sign step + 1) = 1 := by
  unfold stageMultiplier
  set θ := Real.pi / (step : ℝ) with hθ
  have hcos : Real.cos θ = 1 - 2 * Real.sin (θ / 2) ^ 2 := by
    have h1 := Real.cos_two_mul' (θ / 2)
    have h2 := Real.sin_sq_add_cos_sq (θ / 2)
    have h3 : (2 : ℝ) * (θ / 2) = θ := by ring
    rw [h3] at h1
    linarith
  have hz : (⟨-2 * Real.sin (θ / 2) * Real.sin (θ / 2), sign * Real.sin θ⟩ : ℂ) + 1
      = ⟨Real.cos θ, sign * Real.sin θ⟩ := by
    apply Complex.ext
    · show -2 * Real.sin (θ / 2) * Real.sin (θ / 2) + 1 = Real.cos θ
      rw [hcos]; ring
    · show sign * Real.sin θ + 0 = sign * Real.sin θ
      ring
  rw [hz, Complex.abs_apply, Complex.normSq_mk]
  have hpy := Real.sin_sq_add_cos_sq θ
  rcases hs with rfl | rfl
  · rw [show Real.cos θ * Real.cos θ + 1 * Real.sin θ * (1 * Real.sin θ) = 1 by nlinarith]
    exact Real.sqrt_one
  · rw [show Real.cos θ * Real.cos θ + -1 * Real.sin θ * (-1 * Real.sin θ) = 1 by nlinarith]
    exact Real.sqrt_one

theorem abs_stageFactors (m : ℂ) (hm : Complex.abs (m + 1) = 1) :
    ∀ (count : ℕ) (f : ℂ), Complex.abs f = 1 → ∀ g ∈ stageFactors m count f, Complex.abs g = 1 := by
  intro count
  induction count with
  | zero => intro f hf g hg; simp [stageFactors] at hg
  | succ c ih =>
    intro f hf g hg
    simp only [stageFactors, List.mem_cons] at hg
    rcases hg with rfl | hg
    · exact hf
    · refine ih (m * f + f) ?_ g hg
      have hmul : m * f + f = (m + 1) * f := by ring
      rw [hmul, map_mul, hm, hf, one_mul]

theorem abs_factorsFrom (sign : ℝ) (hs : sign = 1 ∨ sign = -1) (n step : ℕ) (hstep : 0 < step) :
    ∀ g ∈ factorsFrom sign n step, Complex.abs g = 1 := by
  by_cases h : step < n
  · rw [factorsFrom_of_lt hstep h]
    intro g hg
    rw [List.mem_append] at hg
    rcases hg with hg | hg
    · exact abs_stageFactors _ (abs_stageMultiplier_add_one sign hs step) step 1 (by simp) g hg
    · exact abs_factorsFrom sign hs n (2 * step) (by omega) g hg
  · rw [factorsFrom_of_not_lt h]
    intro g hg
    simp at hg
termination_by n - step
decreasing_by omega

/-- C8: in exact real arithmetic, every twiddle factor stored by a successful
`Plan.new` has modulus exactly 1: the initial factor is `1 + 0i` and each
recurrence step multiplies by `1 + multiplier`, whose modulus is 1. -/
theorem plan_factors_unit_modulus (op : Operation) (n : ℕ) (p : Plan)
    (h : Plan.new op n = some p) : ∀ f ∈ p.factors, Complex.abs f = 1 := by
  obtain ⟨-, -, hf, -⟩ := plan_new_eq_some h
  rw [hf]
  refine abs_factorsFrom op.sign ?_ n 1 (by norm_num)
  cases op
  · right; rfl
  · left; rfl
  · left; rfl

theorem plan_factors_unit_modulus_witness :
    Plan.new Operation.Forward 2
        = some ⟨2, factorsFrom Operation.Forward.sign 2 1, Operation.Forward⟩
      ∧ ∀ f ∈ (Plan.mk 2 (factorsFrom Operation.Forward.sign 2 1) Operation.Forward).factors,
          Complex.abs f = 1 := by
  have h : Plan.new Operation.Forward 2
      = some ⟨2, factorsFrom Operation.Forward.sign 2 1, Operation.Forward⟩ := by
    have h2 := plan_new_two_pow Operation.Forward 1
    norm_num at h2 ⊢
    exact h2
  exact ⟨h, plan_factors_unit_modulus Operation.Forward 2 _ h⟩

/-! ### Spec-modelled complex transform

The butterfly engine (`complex.rs`) is not among the given sources, only its
contract in §4.2 of the specification is.  The definitions below model that
contract: the forward operation rewrites the buffer to its DFT, the backward
operation is the same sum with conjugated rotation direction and no scaling,
and the inverse operation is backward followed by division by `n`.  Buffers of
length `n` are modelled as functions `ℕ → ℂ` read at indices below `n`. -/

/-- Modelled from the spec: the primitive `n`-th root of unity `exp(2πi/n)`
that drives the rotations of the missing `complex.rs` engine. -/
noncomputable def dftRoot (n : ℕ) : ℂ :=
  Complex.exp (2 * Real.pi * Complex.I / n)

/-- Modelled from the spec: §4.2's forward contract,
`X k = Σ_j x j · exp(−2πi·jk/n)`. -/
noncomputable def dftForward (n : ℕ) (x : ℕ → ℂ) : ℕ → ℂ := fun k =>
  ∑ j ∈ Finset.range n, x j * dftRoot n ^ (-(j * k : ℤ))

/-- Modelled from the spec: §4.2's backward contract — the same butterfly
network with conjugated rotation direction and no `1/n` scaling,
`X k = Σ_j x j · exp(+2πi·jk/n)`. -/
noncomputable def dftBackward (n : ℕ) (x : ℕ → ℂ) : ℕ → ℂ := fun k =>
  ∑ j ∈ Finset.range n, x j * dftRoot n ^ ((j * k : ℤ))

/-- Modelled from the spec: §4.2's inverse contract — backward, then every
element divided by `n`. -/
noncomputable def dftInverse (n : ℕ) (x : ℕ → ℂ) : ℕ → ℂ := fun k =>
  dftBackward n x k / n

/-- Modelled from the spec: the `transform(buffer, plan)` entry point for
complex buffers, dispatching on the plan's operation. -/
noncomputable def applyPlan (p : Plan) (x : ℕ → ℂ) : ℕ → ℂ :=
  match p.operation with
  | .Forward => dftForward p.n x
  | .Backward => dftBackward p.n x
  | .Inverse => dftInverse p.n x

theorem dftRoot_ne_zero (n : ℕ) : dftRoot n ≠ 0 :=
  Complex.exp_ne_zero _

theorem dftRoot_pow_self (n : ℕ) (hn : n ≠ 0) : dftRoot n ^ n = 1 := by
  unfold dftRoot
  rw [← Complex.exp_nat_mul]
  have hne : (n : ℂ) ≠ 0 := Nat.cast_ne_zero.mpr hn
  rw [show (n : ℂ) * (2 * Real.pi * Complex.I / n) = 2 * Real.pi * Complex.I by field_simp]
  exact Complex.exp_two_pi_mul_I

theorem dftRoot_zpow_pow_self (n : ℕ) (hn : n ≠ 0) (d : ℤ) : (dftRoot n ^ d) ^ n = 1 := by
  rw [← zpow_natCast (dftRoot n ^ d) n, ← zpow_mul, mul_comm d (n : ℤ), zpow_mul,
    zpow_natCast, dftRoot_pow_self n hn, one_zpow]

theorem sum_dftRoot_zpow_eq_zero (n : ℕ) (hn : n ≠ 0) (d : ℤ) (hd : ¬ (n : ℤ) ∣ d) :
    ∑ k ∈ Finset.range n, (dftRoot n ^ d) ^ k = 0 := by
  have hprim : IsPrimitiveRoot (dftRoot n) n := Complex.isPrimitiveRoot_exp n hn
  have hne1 : dftRoot n ^ d ≠ 1 := fun h1 => hd ((hprim.zpow_eq_one_iff_dvd d).mp h1)
  rw [geom_sum_eq hne1, dftRoot_zpow_pow_self n hn d, sub_self, zero_div]

theorem sum_dftRoot_orthogonality (n : ℕ) (hn : n ≠ 0) (k i : ℕ) (hk : k < n) (hi : i < n) :
    ∑ j ∈ Finset.range n, (dftRoot n ^ ((k : ℤ) - i)) ^ j
      = if i = k then (n : ℂ) else 0 := by
  by_cases h : i = k
  · subst h
    simp
  · rw [if_neg h]
    apply sum_dftRoot_zpow_eq_zero n hn
    intro hdvd
    have habs : |(k : ℤ) - i| < n := by
      rw [abs_lt]
      constructor <;> omega
    have hzero := Int.eq_zero_of_abs_lt_dvd hdvd habs
    omega

theorem dftBackward_dftForward (n : ℕ) (hn : n ≠ 0) (x : ℕ → ℂ) (k : ℕ) (hk : k < n) :
    dftBackward n (dftForward n x) k = n * x k := by
  unfold dftBackward dftForward
  have hterm : ∀ i ∈ Finset.range n, ∀ j ∈ Finset.range n,
      x i * dftRoot n ^ (-(i * j : ℤ)) * dftRoot n ^ ((j * k : ℤ))
        = x i * (dftRoot n ^ ((k : ℤ) - i)) ^ j := by
    intro i _ j _
    rw [mul_assoc, ← zpow_add₀ (dftRoot_ne_zero n)]
    congr 1
    rw [← zpow_natCast (dftRoot n ^ ((k : ℤ) - i)) j, ← zpow_mul]
    congr 1
    ring
  calc
    ∑ j ∈ Finset.range n, (∑ i ∈ Finset.range n, x i * dftRoot n ^ (-(i * j : ℤ)))
        * dftRoot n ^ ((j * k : ℤ))
      = ∑ j ∈ Finset.range n, ∑ i ∈ Finset.range n,
          x i * dftRoot n ^ (-(i * j : ℤ)) * dftRoot n ^ ((j * k : ℤ)) := by
        refine Finset.sum_congr rfl fun j _ => ?_
        rw [Finset.sum_mul]
    _ = ∑ i ∈ Finset.range n, ∑ j ∈ Finset.range n,
          x i * dftRoot n ^ (-(i * j : ℤ)) * dftRoot n ^ ((j * k : ℤ)) := Finset.sum_comm
    _ = ∑ i ∈ Finset.range n, x i * ∑ j ∈ Finset.range n, (dftRoot n ^ ((k : ℤ) - i)) ^ j := by
        refine Finset.sum_congr rfl fun i hi => ?_
        rw [Finset.mul_sum]
        exact Finset.sum_congr rfl fun j hj => hterm i hi j hj
    _ = ∑ i ∈ Finset.range n, x i * (if i = k then (n : ℂ) else 0) := by
        refine Finset.sum_congr rfl fun i hi => ?_
        rw [sum_dftRoot_orthogonality n hn k i hk (Finset.mem_range.mp hi)]
    _ = x k * n := by
        rw [Finset.sum_eq_single_of_mem k (Finset.mem_range.mpr hk)]
        · rw [if_pos rfl]
        · intro b _ hb
          rw [if_neg hb, mul_zero]
    _ = n * x k := mul_comm _ _

theorem dftInverse_dftForward (n : ℕ) (hn : n ≠ 0) (x : ℕ → ℂ) (k : ℕ) (hk : k < n) :
    dftInverse n (dftForward n x) k = x k := by
  unfold dftInverse
  rw [dftBackward_dftForward n hn x k hk]
  have hne : (n : ℂ) ≠ 0 := Nat.cast_ne_zero.mpr hn
  field_simp

/-- C5: with plans built for a power-of-two length `n`, applying `Forward`
and then `Backward` to a complex buffer yields the original buffer scaled
elementwise by `n` (the backward pass applies no `1/n` normalization). -/
theorem backward_after_forward_scales_by_n (n K : ℕ) (hn : n = 2 ^ K) (x : ℕ → ℂ)
    (pf pb : Plan) (hf : Plan.new Operation.Forward n = some pf)
    (hb : Plan.new Operation.Backward n = some pb) (k : ℕ) (hk : k < n) :
    applyPlan pb (applyPlan pf x) k = n * x k := by
  obtain ⟨-, hfn, -, hfop⟩ := plan_new_eq_some hf
  obtain ⟨-, hbn, -, hbop⟩ := plan_new_eq_some hb
  have hn0 : n ≠ 0 := by
    subst hn
    exact pow_ne_zero K (by norm_num)
  unfold applyPlan
  rw [hfop, hbop, hfn, hbn]
  exact dftBackward_dftForward n hn0 x k hk

theorem backward_after_forward_scales_by_n_witness :
    (1 : ℕ) = 2 ^ 0
      ∧ Plan.new Operation.Forward 1
          = some ⟨1, factorsFrom Operation.Forward.sign 1 1, Operation.Forward⟩
      ∧ Plan.new Operation.Backward 1
          = some ⟨1, factorsFrom Operation.Backward.sign 1 1, Operation.Backward⟩
      ∧ applyPlan (Plan.mk 1 (factorsFrom Operation.Backward.sign 1 1) Operation.Backward)
          (applyPlan (Plan.mk 1 (factorsFrom Operation.Forward.sign 1 1) Operation.Forward)
            (fun _ => 1)) 0
          = (1 : ℕ) * (fun _ => (1 : ℂ)) 0 := by
  have hf : Plan.new Operation.Forward 1
      = some ⟨1, factorsFrom Operation.Forward.sign 1 1, Operation.Forward⟩ := by
    have h1 := plan_new_two_pow Operation.Forward 0
    norm_num at h1 ⊢
    exact h1
  have hb : Plan.new Operation.Backward 1
      = some ⟨1, factorsFrom Operation.Backward.sign 1 1, Operation.Backward⟩ := by
    have h1 := plan_new_two_pow Operation.Backward 0
    norm_num at h1 ⊢
    exact h1
  exact ⟨by norm_num, hf, hb,
    backward_after_forward_scales_by_n 1 0 (by norm_num) (fun _ => 1) _ _ hf hb 0 (by norm_num)⟩

/-- C1: with plans built for a power-of-two length `n`, applying `Forward`
and then `Inverse` to a complex buffer returns the original buffer (the
inverse pass divides every element by `n` after the backward network). -/
theorem inverse_after_forward_roundtrip (n K : ℕ) (hn : n = 2 ^ K) (x : ℕ → ℂ)
    (pf pi : Plan) (hf : Plan.new Operation.Forward n = some pf)
    (hi : Plan.new Operation.Inverse n = some pi) (k : ℕ) (hk : k < n) :
    applyPlan pi (applyPlan pf x) k = x k := by
  obtain ⟨-, hfn, -, hfop⟩ := plan_new_eq_some hf
  obtain ⟨-, hin, -, hiop⟩ := plan_new_eq_some hi
  have hn0 : n ≠ 0 := by
    subst hn
    exact pow_ne_zero K (by norm_num)
  unfold applyPlan
  rw [hfop, hiop, hfn, hin]
  exact dftInverse_dftForward n hn0 x k hk

theorem inverse_after_forward_roundtrip_witness :
    (1 : ℕ) = 2 ^ 0
      ∧ Plan.new Operation.Forward 1
          = some ⟨1, factorsFrom Operation.Forward.sign 1 1, Operation.Forward⟩
      ∧ Plan.new Operation.Inverse 1
          = some ⟨1, factorsFrom Operation.Inverse.sign 1 1, Operation.Inverse⟩
      ∧ applyPlan (Plan.mk 1 (factorsFrom Operation.Inverse.sign 1 1) Operation.Inverse)
          (applyPlan (Plan.mk 1 (factorsFrom Operation.Forward.sign 1 1) Operation.Forward)
            (fun _ => 1)) 0
          = (fun _ => (1 : ℂ)) 0 := by
  have hf : Plan.new Operation.Forward 1
      = some ⟨1, factorsFrom Operation.Forward.sign 1 1, Operation.Forward⟩ := by
    have h1 := plan_new_two_pow Operation.Forward 0
    norm_num at h1 ⊢
    exact h1
  have hi : Plan.new Operation.Inverse 1
      = some ⟨1, factorsFrom Operation.Inverse.sign 1 1, Operation.Inverse⟩ := by
    have h1 := plan_new_two_pow Operation.Inverse 0
    norm_num at h1 ⊢
    exact h1
  exact ⟨by norm_num, hf, hi,
    inverse_after_forward_roundtrip 1 0 (by norm_num) (fun _ => 1) _ _ hf hi 0 (by norm_num)⟩

/-! ### Spec-modelled real-data path

`real.rs` is not among the given sources either.  §3 fixes the packed
real-spectrum format, §4.3 fixes the forward real transform's result (its
guarantee: after `unpack` it is exactly the full-length complex forward
transform of the zero-imaginary-padded samples; the recombination constants
are explicitly left open in §9), and §4.3 describes `unpack`. -/

/-- Modelled from the spec: §3's packed real-spectrum format — slot 0 the real
DC component, slot 1 the real Nyquist component, and slots `2k`/`2k+1` the
real and imaginary parts of positive-frequency bin `k`. -/
noncomputable def packSpectrum (n : ℕ) (X : ℕ → ℂ) : ℕ → ℝ := fun i =>
  if i = 0 then (X 0).re
  else if i = 1 then (X (n / 2)).re
  else if i % 2 = 0 then (X (i / 2)).re
  else (X (i / 2)).im

/-- Modelled from the spec: the forward real transform of §4.3, specified by
its contract — the buffer ends up holding the packed form of the full-length
complex forward transform of the `n` samples taken with zero imaginary
parts. -/
noncomputable def realForward (n : ℕ) (x : ℕ → ℝ) : ℕ → ℝ :=
  packSpectrum n (dftForward n (fun j => ((x j : ℝ) : ℂ)))

/-- Modelled from the spec: `unpack` (§4.3) — the read-only expansion of a
packed buffer to the full complex spectrum of length `n`: bin 0 from slot 0,
bin `n/2` from slot 1, bins `1 ≤ k < n/2` from slots `2k`, `2k+1`, and bins
above `n/2` mirrored by conjugate symmetry (`bin n−k` conjugate of `bin k`). -/
noncomputable def unpack (n : ℕ) (p : ℕ → ℝ) : ℕ → ℂ := fun k =>
  if k = 0 then ((p 0 : ℝ) : ℂ)
  else if k = n / 2 then ((p 1 : ℝ) : ℂ)
  else if k < n / 2 then ⟨p (2 * k), p (2 * k + 1)⟩
  else ⟨p (2 * (n - k)), -(p (2 * (n - k) + 1))⟩

theorem packSpectrum_zero (n : ℕ) (X : ℕ → ℂ) : packSpectrum n X 0 = (X 0).re := by
  unfold packSpectrum
  rw [if_pos rfl]

theorem packSpectrum_one (n : ℕ) (X : ℕ → ℂ) : packSpectrum n X 1 = (X (n / 2)).re := by
  unfold packSpectrum
  rw [if_neg (by omega), if_pos rfl]

theorem packSpectrum_even (n : ℕ) (X : ℕ → ℂ) (m : ℕ) (hm : 1 ≤ m) :
    packSpectrum n X (2 * m) = (X m).re := by
  unfold packSpectrum
  rw [if_neg (by omega), if_neg (by omega), if_pos (by omega)]
  congr 2
  omega

theorem packSpectrum_odd (n : ℕ) (X : ℕ → ℂ) (m : ℕ) (hm : 1 ≤ m) :
    packSpectrum n X (2 * m + 1) = (X m).im := by
  unfold packSpectrum
  rw [if_neg (by omega), if_neg (by omega), if_neg (by omega)]
  congr 2
  omega

theorem dftRoot_zpow_mul_natCast (n : ℕ) (hn : n ≠ 0) (a : ℤ) :
    dftRoot n ^ (a * (n : ℤ)) = 1 := by
  rw [zpow_mul, zpow_natCast]
  exact dftRoot_zpow_pow_self n hn a

theorem conj_dftRoot (n : ℕ) : (starRingEnd ℂ) (dftRoot n) = (dftRoot n)⁻¹ := by
  unfold dftRoot
  rw [← Complex.exp_conj, ← Complex.exp_neg]
  congr 1
  rw [map_div₀, map_mul, map_mul]
  simp [Complex.conj_I, map_ofNat]
  ring

/-- Conjugate symmetry of the forward transform of a real sequence:
`conj (X k) = X (n − k)` for `k ≤ n`. -/
theorem dftForward_real_conj (n : ℕ) (hn : n ≠ 0) (x : ℕ → ℝ) (k : ℕ) (hk : k ≤ n) :
    (starRingEnd ℂ) (dftForward n (fun j => ((x j : ℝ) : ℂ)) k)
      = dftForward n (fun j => ((x j : ℝ) : ℂ)) (n - k) := by
  unfold dftForward
  rw [map_sum]
  refine Finset.sum_congr rfl fun j _ => ?_
  rw [map_mul, Complex.conj_ofReal]
  congr 1
  rw [map_zpow₀, conj_dftRoot, inv_zpow, ← zpow_neg, neg_neg]
  rw [Nat.cast_sub hk]
  rw [show -((j : ℤ) * ((n : ℤ) - (k : ℤ))) = (j : ℤ) * (k : ℤ) + (-(j : ℤ)) * (n : ℤ) by ring]
  rw [zpow_add₀ (dftRoot_ne_zero n), dftRoot_zpow_mul_natCast n hn (-(j : ℤ)), mul_one]

/-- The DC bin of the forward transform of a real sequence is real. -/
theorem dftForward_real_im_zero_at_zero (n : ℕ) (x : ℕ → ℝ) :
    (dftForward n (fun j => ((x j : ℝ) : ℂ)) 0).im = 0 := by
  unfold dftForward
  rw [Complex.im_sum]
  refine Finset.sum_eq_zero fun j _ => ?_
  simp

/-- C6: for a real buffer of even power-of-two length `n`, the forward real
transform followed by `unpack` gives exactly the complex spectrum the
full-length complex forward transform produces on the zero-imaginary-padded
samples. -/
theorem unpack_realForward_eq_complex_forward (n K : ℕ) (hn : n = 2 ^ K) (hK : 1 ≤ K)
    (x : ℕ → ℝ) (k : ℕ) (hk : k < n) :
    unpack n (realForward n x) k = dftForward n (fun j => ((x j : ℝ) : ℂ)) k := by
  have hn0 : n ≠ 0 := by
    subst hn
    exact pow_ne_zero K (by norm_num)
  have heven : n % 2 = 0 := by
    subst hn
    obtain ⟨J, rfl⟩ : ∃ J, K = J + 1 := ⟨K - 1, by omega⟩
    rw [pow_succ]
    omega
  have h2n : 2 ≤ n := by
    subst hn
    calc (2 : ℕ) = 2 ^ 1 := by norm_num
    _ ≤ 2 ^ K := Nat.pow_le_pow_right (by norm_num) hK
  unfold unpack realForward
  by_cases hk0 : k = 0
  · subst hk0
    rw [if_pos rfl, packSpectrum_zero]
    apply Complex.ext
    · simp
    · rw [Complex.ofReal_im, dftForward_real_im_zero_at_zero]
  · by_cases hkh : k = n / 2
    · subst hkh
      rw [if_neg hk0, if_pos rfl, packSpectrum_one]
      have hcc : (starRingEnd ℂ) (dftForward n (fun j => ((x j : ℝ) : ℂ)) (n / 2))
          = dftForward n (fun j => ((x j : ℝ) : ℂ)) (n / 2) := by
        rw [dftForward_real_conj n hn0 x (n / 2) (by omega)]
        congr 1
        omega
      have him := Complex.conj_eq_iff_im.mp hcc
      apply Complex.ext
      · simp
      · rw [Complex.ofReal_im, him]
    · by_cases hklt : k < n / 2
      · rw [if_neg hk0, if_neg hkh, if_pos hklt]
        have hm : 1 ≤ k := by omega
        rw [packSpectrum_even n _ k hm, packSpectrum_odd n _ k hm]
      · rw [if_neg hk0, if_neg hkh, if_neg hklt]
        have hd1 : 1 ≤ n - k := by omega
        have hc : (starRingEnd ℂ) (dftForward n (fun j => ((x j : ℝ) : ℂ)) (n - k))
            = dftForward n (fun j => ((x j : ℝ) : ℂ)) k := by
          rw [dftForward_real_conj n hn0 x (n - k) (by omega)]
          congr 1
          omega
        rw [packSpectrum_even n _ (n - k) hd1, packSpectrum_odd n _ (n - k) hd1]
        apply Complex.ext
        · rw [← hc, Complex.conj_re]
        · rw [← hc, Complex.conj_im]

theorem unpack_realForward_eq_complex_forward_witness :
    (2 : ℕ) = 2 ^ 1 ∧ (1 : ℕ) ≤ 1 ∧ (0 : ℕ) < 2
      ∧ unpack 2 (realForward 2 (fun _ => 1)) 0
          = dftForward 2 (fun j => (((fun _ => (1 : ℝ)) j : ℝ) : ℂ)) 0 :=
  ⟨by norm_num, le_refl 1, by norm_num,
    unpack_realForward_eq_complex_forward 2 1 (by norm_num) (le_refl 1)
      (fun _ => 1) 0 (by norm_num)⟩

theorem dftRoot_two : dftRoot 2 = -1 := by
  unfold dftRoot
  have h2 : ((2 : ℕ) : ℂ) = 2 := by norm_num
  rw [h2, show (2 * (Real.pi : ℝ) * Complex.I / 2 : ℂ) = (Real.pi : ℝ) * Complex.I by ring]
  exact Complex.exp_pi_mul_I

/-- C7: the forward real transform of the length-2 buffer `[a, b]` stores
`a + b` (the real DC component) in packed slot 0 and `a − b` (the real
Nyquist component) in packed slot 1. -/
theorem realForward_two_point (a b : ℝ) :
    realForward 2 (fun i => if i = 0 then a else b) 0 = a + b
      ∧ realForward 2 (fun i => if i = 0 then a else b) 1 = a - b := by
  unfold realForward
  rw [packSpectrum_zero, packSpectrum_one]
  have hneg : (-1 : ℂ) ^ (-((1 : ℤ) * 1)) = -1 := by
    rw [show -((1 : ℤ) * 1) = -1 by ring, zpow_neg, zpow_one]
    norm_num
  constructor
  · unfold dftForward
    rw [Finset.sum_range_succ, Finset.sum_range_succ, Finset.sum_range_zero]
    simp
  · unfold dftForward
    rw [show (2 : ℕ) / 2 = 1 by norm_num]
    rw [Finset.sum_range_succ, Finset.sum_range_succ, Finset.sum_range_zero, dftRoot_two]
    simp [hneg]
    ring

/-- C9: `unpack` is a pure function of its packed argument: two runs on equal
packed buffers produce equal full spectra (in this model buffers are
immutable values, so the packed input cannot be mutated). -/
theorem unpack_deterministic (n : ℕ) (p q : ℕ → ℝ) (h : p = q) :
    unpack n p = unpack n q := by
  rw [h]

theorem unpack_deterministic_witness :
    unpack 2 (fun _ => 1) = unpack 2 (fun _ => 1) :=
  unpack_deterministic 2 (fun _ => 1) (fun _ => 1) rfl
